import Mathlib

set_option autoImplicit false

/-!
# Verification of the Merkle tree engine of `ethereum-sdk-rs`

A shallow embedding of `src/merkle.rs` (the Merkle tree construction,
proof extraction and verification) and of the Merkle-related entry point
`EthereumClient::get_hash_merkle` of `src/lib.rs`, together with proofs of
the specified properties.

Modelling conventions:

* Byte vectors (`Vec<u8>`, `MerkleTreeData`) become `List Nat`; 32-byte
  digests (`[u8; 32]`, `MerkleTreeHash`) become `List Nat` as well, since
  the digest producer is external (see next point).
* `keccak256_array` calls into the external `sha3` crate and
  `serde_json::to_vec` into the external `serde_json` crate; neither body
  is part of this repository.  Both are therefore taken as *parameters*
  (`H` for the Keccak-256 hash, `S` for the JSON serialization of a digest
  pair): every theorem below is universally quantified over them, so it
  holds for the real Keccak-256/serde_json in particular.  Where a
  property genuinely depends on collision-freedom of the hash, that
  appears as an explicit injectivity hypothesis.
* The imperative loops of `MerkleTree::build` become structural
  recursions.  The two loops whose trip count is data dependent
  (the power-of-two search and the leaf-to-root walk) are written with an
  explicit fuel argument that provably dominates the trip count at every
  call site, so that all definitions compute by kernel reduction.
-/

/-- `pub type MerkleTreeData = Vec<u8>` — an opaque byte blob. -/
abbrev MerkleTreeData : Type := List Nat

/-- `pub type MerkleTreeHash = [u8; 32]` — a digest, modelled as a byte list. -/
abbrev MerkleTreeHash : Type := List Nat

/-- `pub type MerkleTreeProof = Vec<MerkleTreeHash>`. -/
abbrev MerkleTreeProof : Type := List MerkleTreeHash

/-- The all-zero digest `[0u8; 32]`, the initial content of a node slot. -/
def zeroHash : MerkleTreeHash := List.replicate 32 0

/-- `pub struct MerkleTreeRoot { pub hash: MerkleTreeHash }`. -/
structure MerkleTreeRoot where
  hash : MerkleTreeHash
deriving DecidableEq

/-- `pub struct MerkleTree { pub root: MerkleTreeRoot, pub proofs: Vec<MerkleTreeProof> }`. -/
structure MerkleTree where
  root : MerkleTreeRoot
  proofs : List MerkleTreeProof
deriving DecidableEq

/-- Byte-lexicographic strict comparison of two digests: the `first < second`
of `sort_hash_pair`, i.e. Rust's derived lexicographic `Ord` on byte arrays. -/
def hashLt : MerkleTreeHash → MerkleTreeHash → Bool
  | [], [] => false
  | [], _ :: _ => true
  | _ :: _, [] => false
  | a :: as, b :: bs => if a < b then true else if b < a then false else hashLt as bs

/-- `pub fn sort_hash_pair(first, second) -> (MerkleTreeHash, MerkleTreeHash)`:
orders a digest pair smaller-first. -/
def sort_hash_pair (first second : MerkleTreeHash) : MerkleTreeHash × MerkleTreeHash :=
  if hashLt first second then (first, second) else (second, first)

/-- The inline node-combination step
`keccak256_array(&serde_json::to_vec(&sort_hash_pair(a, b)).unwrap())`
shared by `MerkleTreeRoot::verify` and `MerkleTree::build`.
`H` models the external `keccak256_array`, `S` the external
`serde_json::to_vec` on a digest pair. -/
def combine (H : MerkleTreeData → MerkleTreeHash)
    (S : MerkleTreeHash × MerkleTreeHash → MerkleTreeData)
    (a b : MerkleTreeHash) : MerkleTreeHash :=
  H (S (sort_hash_pair a b))

/-- `MerkleTreeRoot::verify(&self, data, proof) -> bool`: fold the proof's
sibling digests onto the leaf digest and compare with the stored root. -/
def MerkleTreeRoot.verify (H : MerkleTreeData → MerkleTreeHash)
    (S : MerkleTreeHash × MerkleTreeHash → MerkleTreeData)
    (self : MerkleTreeRoot) (data : MerkleTreeData) (proof : MerkleTreeProof) : Bool :=
  decide (self.hash = proof.foldl (fun hash second_hash => combine H S hash second_hash) (H data))

/-- The power-of-two search loop of `MerkleTree::build`:
`while st < items.len() { st_sum += st; st <<= 1 }`, rendered as a
fuel-indexed recursion (state `(st, st_sum)`); fuel `n` dominates the trip
count at the call site (`stPair`), since the loop runs at most `n` times. -/
def stLoopF : Nat → Nat → Nat → Nat → Nat × Nat
  | 0, _, st, st_sum => (st, st_sum)
  | fuel + 1, n, st, st_sum =>
    if st < n then stLoopF fuel n (st * 2) (st_sum + st) else (st, st_sum)

/-- The `(st, st_sum)` pair computed by `build` for an input of length `n`
(initial state `st = 1`, `st_sum = 0`). -/
def stPair (n : Nat) : Nat × Nat := stLoopF n n 1 0

/-- The padding loop `while items.len() < st_sum + st { items.push(Vec::new()) }`. -/
def padItems (items : List MerkleTreeData) (total : Nat) : List MerkleTreeData :=
  items ++ List.replicate (total - items.length) []

/-- The node-array initialization of `build`: allocate `st_sum + st` slots of
`[0u8; 32]` and run `for i in st_sum..st_sum + st { nodes[i] = keccak256_array(&items[i - st_sum]) }`,
i.e. the first `st_sum` slots stay zero and slot `st_sum + j` (`j < st`)
holds the leaf digest of padded item `j`. -/
def leafNodes (H : MerkleTreeData → MerkleTreeHash)
    (items2 : List MerkleTreeData) (st_sum st : Nat) : List MerkleTreeHash :=
  List.replicate st_sum zeroHash ++ (items2.take st).map H

/-- The internal-node loop of `build`:
`let mut i = st_sum; while i > 0 { i -= 1; nodes[i] = combine(nodes[2i+1], nodes[2i+2]) }`.
`internalLoop H S i nodes` is the loop with counter value `i`; one recursive
call is one iteration (store at `i - 1`, then continue with counter `i - 1`). -/
def internalLoop (H : MerkleTreeData → MerkleTreeHash)
    (S : MerkleTreeHash × MerkleTreeHash → MerkleTreeData) :
    Nat → List MerkleTreeHash → List MerkleTreeHash
  | 0, nodes => nodes
  | i + 1, nodes =>
    internalLoop H S i
      (nodes.set i (combine H S (nodes.getD (2 * i + 1) zeroHash)
        (nodes.getD ((i + 1) * 2) zeroHash)))

/-- The leaf-to-root walk of `get_proof` inside `build`:
`while v > 0 { w = if v % 2 == 0 { v - 1 } else { v + 1 }; result.push(nodes[w]); v = (v - 1) >> 1 }`,
rendered with fuel; fuel `v` dominates the trip count since `(v - 1) / 2 < v`
for `v > 0`. -/
def proofLoopF (nodes : List MerkleTreeHash) : Nat → Nat → MerkleTreeProof
  | 0, _ => []
  | fuel + 1, v =>
    if v > 0 then
      (nodes.getD (if v % 2 == 0 then v - 1 else v + 1) zeroHash) ::
        proofLoopF nodes fuel ((v - 1) / 2)
    else []

/-- The fully built node array of `MerkleTree::build` on input `items`:
pad, fill the leaf slots, then run the internal-node loop. -/
def buildNodes (H : MerkleTreeData → MerkleTreeHash)
    (S : MerkleTreeHash × MerkleTreeHash → MerkleTreeData)
    (items : List MerkleTreeData) : List MerkleTreeHash :=
  let st := (stPair items.length).1
  let st_sum := (stPair items.length).2
  internalLoop H S st_sum (leafNodes H (padItems items (st_sum + st)) st_sum st)

/-- `MerkleTree::build(items: &Vec<MerkleTreeData>) -> MerkleTree`:
root is node slot `0`, and `proofs[i]` (for each *original* index
`i < items.len()`) is the sibling walk from absolute slot `i + st_sum`. -/
def MerkleTree.build (H : MerkleTreeData → MerkleTreeHash)
    (S : MerkleTreeHash × MerkleTreeHash → MerkleTreeData)
    (items : List MerkleTreeData) : MerkleTree :=
  let st_sum := (stPair items.length).2
  let nodes := buildNodes H S items
  { root := ⟨nodes.getD 0 zeroHash⟩
    proofs := (List.range items.length).map
      (fun i => proofLoopF nodes (i + st_sum) (i + st_sum)) }

/-- `H256`, the `ethers` 32-byte transaction-hash type, modelled as a byte list. -/
abbrev H256 : Type := List Nat

/-- The two fields of `ethers::types::Block` that `get_hash_merkle` reads. -/
structure Block where
  transactions : List H256
  transactions_root : H256
deriving DecidableEq

/-- `EthereumClient::data_slice`: map each serializable item to the SHA-256
digest of its JSON string, as a byte blob.  `sha` models the external
`string_to_crypto_hash` (SHA-256), `jstr` the external
`serde_json::to_string`. -/
def data_slice {T : Type} (sha : String → MerkleTreeHash) (jstr : T → String)
    (datas : List T) : List MerkleTreeData :=
  datas.map (fun f => sha (jstr f))

/-- `EthereumClient::get_hash_merkle(block, transaction_hash)`:
append the block's `transactions_root` as one extra synthetic leaf, locate
the requested hash (`.position(..).expect(..)` — panic, modelled as `none`,
when absent; position `0` when no hash is requested), hash every entry with
`data_slice`, build the tree, and return the root with the located proof. -/
def get_hash_merkle (H : MerkleTreeData → MerkleTreeHash)
    (S : MerkleTreeHash × MerkleTreeHash → MerkleTreeData)
    (sha : String → MerkleTreeHash) (jstr : H256 → String)
    (block : Block) (transaction_hash : Option H256) :
    Option (MerkleTreeRoot × MerkleTreeProof) :=
  let tx_hashs := block.transactions ++ [block.transactions_root]
  let index? : Option Nat :=
    match transaction_hash with
    | some hx => tx_hashs.findIdx? (fun h => h == hx)
    | none => some 0
  match index? with
  | none => none
  | some index =>
    let hash_items := data_slice sha jstr tx_hashs
    let merkle := MerkleTree.build H S hash_items
    some (merkle.root, merkle.proofs.getD index [])

/-! ## Proof-side (specification) definitions

The following definitions are not transcriptions of repository code; they are
the specification-side descriptions against which the imperative loops are
checked. -/

/-- `treeNode leafH st_sum i` — the value the spec assigns to heap slot `i`:
the leaf digest `leafH (i - st_sum)` for the last `st` slots, and the
combination of the two child slots `2i+1`, `2i+2` for the internal ones. -/
def treeNode (H : MerkleTreeData → MerkleTreeHash)
    (S : MerkleTreeHash × MerkleTreeHash → MerkleTreeData)
    (leafH : Nat → MerkleTreeHash) (st_sum : Nat) (i : Nat) : MerkleTreeHash :=
  if st_sum ≤ i then leafH (i - st_sum)
  else combine H S (treeNode H S leafH st_sum (2 * i + 1)) (treeNode H S leafH st_sum (2 * i + 2))
termination_by st_sum - i
decreasing_by all_goals omega

/-- The sibling walk from absolute slot `v`, with its canonical fuel. -/
def getProofAt (nodes : List MerkleTreeHash) (v : Nat) : MerkleTreeProof :=
  proofLoopF nodes v v

/-- The digest of padded leaf `m` of an input list: the item itself below
`items.length`, the empty blob in the padding range. -/
def paddedLeafH (H : MerkleTreeData → MerkleTreeHash)
    (items : List MerkleTreeData) : Nat → MerkleTreeHash :=
  fun m => H ((padItems items ((stPair items.length).2 + (stPair items.length).1)).getD m [])

/-- Concrete injective stand-in for the Keccak-256 parameter, used by
witnesses and counterexamples: tag the blob with a leading byte. -/
def Hc : MerkleTreeData → MerkleTreeHash := fun d => 1 :: d

/-- Concrete injective stand-in for the pair-serialization parameter, used by
witnesses and counterexamples: length-prefixed concatenation. -/
def Sc : MerkleTreeHash × MerkleTreeHash → MerkleTreeData :=
  fun p => p.1.length :: (p.1 ++ p.2)

/-- Concrete stand-in for the SHA-256 string-hash parameter of `data_slice`. -/
def Shac : String → MerkleTreeHash := fun s => s.data.map Char.toNat

/-- Concrete stand-in for the JSON serialization of an identifier. -/
def Jstrc : H256 → String := fun h => toString h

/-! ## Facts about the pair ordering -/

lemma hashLt_asymm : ∀ a b : MerkleTreeHash, hashLt a b = true → hashLt b a = false
  | [], [] => by simp [hashLt]
  | [], _ :: _ => by simp [hashLt]
  | _ :: _, [] => by simp [hashLt]
  | a :: as, b :: bs => by
    simp only [hashLt]
    intro h
    rcases Nat.lt_trichotomy a b with hab | hab | hab
    · simp [hab, Nat.lt_asymm hab]
    · subst hab
      simp only [Nat.lt_irrefl, if_false] at h ⊢
      exact hashLt_asymm as bs h
    · simp [hab, Nat.lt_asymm hab] at h

lemma hashLt_total_eq : ∀ a b : MerkleTreeHash,
    hashLt a b = false → hashLt b a = false → a = b
  | [], [] => by simp
  | [], _ :: _ => by simp [hashLt]
  | _ :: _, [] => by simp [hashLt]
  | a :: as, b :: bs => by
    simp only [hashLt]
    intro h1 h2
    rcases Nat.lt_trichotomy a b with hab | hab | hab
    · simp [hab] at h1
    · subst hab
      simp only [Nat.lt_irrefl, if_false] at h1 h2
      rw [hashLt_total_eq as bs h1 h2]
    · simp [hab] at h2

/-- The pair-ordering step is symmetric in its two arguments. -/
lemma sort_hash_pair_comm (a b : MerkleTreeHash) :
    sort_hash_pair a b = sort_hash_pair b a := by
  unfold sort_hash_pair
  rcases hab : hashLt a b with _ | _
  · rcases hba : hashLt b a with _ | _
    · rw [hashLt_total_eq a b hab hba]
    · simp
  · rw [hashLt_asymm a b hab]
    simp

/-- Ordering two pairs that share the element `c` to equal results forces the
remaining elements to agree. -/
lemma sort_hash_pair_cancel {a b c : MerkleTreeHash}
    (h : sort_hash_pair a c = sort_hash_pair b c) : a = b := by
  unfold sort_hash_pair at h
  rcases hac : hashLt a c with _ | _ <;> rcases hbc : hashLt b c with _ | _ <;>
      simp only [hac, hbc, Bool.false_eq_true, if_true, if_false, ite_true, ite_false,
        Prod.mk.injEq] at h
  · exact h.2
  · exact h.2.trans h.1
  · exact h.1.trans h.2
  · exact h.1

/-- Node combination is commutative, for every hash and serializer. -/
lemma combine_comm (H : MerkleTreeData → MerkleTreeHash)
    (S : MerkleTreeHash × MerkleTreeHash → MerkleTreeData) (a b : MerkleTreeHash) :
    combine H S a b = combine H S b a := by
  unfold combine
  rw [sort_hash_pair_comm]

/-! ## The power-of-two search loop -/

/-- Invariant of the `st`/`st_sum` loop: starting from state `(st, s)` with
`st ≥ 1` and enough fuel, the loop doubles `st` some `j` times, accumulates the
doubled values into the sum, stops at a value at least `n`, and the previous
value (when a doubling happened at all) was still below `n`. -/
lemma stLoopF_spec : ∀ (fuel n st s : Nat), 1 ≤ st → n ≤ st + fuel →
    ∃ j : Nat, stLoopF fuel n st s = (st * 2 ^ j, s + (st * 2 ^ j - st)) ∧
      n ≤ st * 2 ^ j ∧ (j = 0 ∨ st * 2 ^ (j - 1) < n) := by
  intro fuel
  induction fuel with
  | zero =>
    intro n st s hst hn
    refine ⟨0, ?_, ?_, Or.inl rfl⟩
    · simp [stLoopF]
    · simpa using hn
  | succ fuel ih =>
    intro n st s hst hn
    by_cases hlt : st < n
    · obtain ⟨j', hj, hnle, hmin⟩ := ih n (st * 2) (s + st) (by omega) (by omega)
      have hpow : 1 ≤ 2 ^ j' := Nat.one_le_two_pow
      have hB : st ≤ st * 2 ^ j' := Nat.le_mul_of_pos_right st (by omega)
      have h2 : st * 2 * 2 ^ j' = st * 2 ^ (j' + 1) := by ring
      refine ⟨j' + 1, ?_, ?_, ?_⟩
      · rw [stLoopF, if_pos (by simpa using hlt), hj]
        refine Prod.ext h2 ?_
        show s + st + (st * 2 * 2 ^ j' - st * 2) = s + (st * 2 ^ (j' + 1) - st)
        rw [h2]
        have : st * 2 ^ (j' + 1) = 2 * (st * 2 ^ j') := by ring
        omega
      · rw [← h2]
        omega
      · right
        simp only [Nat.add_sub_cancel]
        rcases hmin with h0 | hlt'
        · subst h0
          simpa using hlt
        · rcases j' with _ | j''
          · simpa using hlt
          · have heq : st * 2 * 2 ^ (j'' + 1 - 1) = st * 2 ^ (j'' + 1) := by
              simp only [Nat.add_sub_cancel]
              ring
            rw [heq] at hlt'
            exact hlt'
    · refine ⟨0, ?_, by simpa using Nat.le_of_not_lt hlt, Or.inl rfl⟩
      rw [stLoopF, if_neg (by simpa using hlt)]
      simp

/-- The loop as called by `build`: `st` is `2 ^ k` and `st_sum` is `2 ^ k - 1`,
with `2 ^ k` at least `n` and `2 ^ (k - 1)` (when `k > 0`) below `n`. -/
lemma stPair_spec (n : Nat) :
    ∃ k : Nat, stPair n = (2 ^ k, 2 ^ k - 1) ∧ n ≤ 2 ^ k ∧ (k = 0 ∨ 2 ^ (k - 1) < n) := by
  obtain ⟨j, hj, hn, hmin⟩ := stLoopF_spec n n 1 0 (le_refl 1) (by omega)
  refine ⟨j, ?_, by simpa using hn, by simpa using hmin⟩
  simpa using hj

lemma stPair_snd_add_one (n : Nat) : (stPair n).2 + 1 = (stPair n).1 := by
  obtain ⟨k, hk, -, -⟩ := stPair_spec n
  have : 1 ≤ 2 ^ k := Nat.one_le_two_pow
  rw [hk]
  simpa using by omega

lemma le_stPair_fst (n : Nat) : n ≤ (stPair n).1 := by
  obtain ⟨k, hk, hn, -⟩ := stPair_spec n
  rw [hk]
  simpa using hn

/-- `(stPair n).1` is exactly `2 ^ Nat.clog 2 n`, the smallest power of two
at least `n`. -/
lemma stPair_fst_eq_pow_clog (n : Nat) : (stPair n).1 = 2 ^ Nat.clog 2 n := by
  obtain ⟨k, hk, hn, hmin⟩ := stPair_spec n
  have h2 : (1 : ℕ) < 2 := by norm_num
  have hle : Nat.clog 2 n ≤ k := (Nat.le_pow_iff_clog_le h2).mp hn
  have hge : k ≤ Nat.clog 2 n := by
    rcases hmin with h0 | hlt
    · omega
    · by_contra hcon
      have hk1 : Nat.clog 2 n ≤ k - 1 := by omega
      have := (Nat.le_pow_iff_clog_le h2).mpr hk1
      omega
  rw [hk]
  simp [Nat.le_antisymm hge hle]

lemma treeNode_leaf (H S leafH) {st_sum i : Nat} (h : st_sum ≤ i) :
    treeNode H S leafH st_sum i = leafH (i - st_sum) := by
  rw [treeNode, if_pos h]

lemma treeNode_internal (H S leafH) {st_sum i : Nat} (h : i < st_sum) :
    treeNode H S leafH st_sum i =
      combine H S (treeNode H S leafH st_sum (2 * i + 1))
        (treeNode H S leafH st_sum (2 * i + 2)) := by
  rw [treeNode, if_neg (by omega)]

/-! ## List access helpers -/

lemma getD_set_ne {α : Type} {l : List α} {i j : Nat} (h : i ≠ j) (a d : α) :
    (l.set i a).getD j d = l.getD j d := by
  rw [List.getD_eq_getD_get?, List.getD_eq_getD_get?, List.get?_eq_getElem?,
    List.get?_eq_getElem?, List.getElem?_set_ne h]

lemma getD_set_self {α : Type} {l : List α} {i : Nat} (h : i < l.length) (a d : α) :
    (l.set i a).getD i d = a := by
  rw [List.getD_eq_getD_get?, List.get?_eq_getElem?, List.getElem?_set_self h]
  rfl

/-! ## The internal-node loop computes `treeNode` -/

lemma internalLoop_length (H : MerkleTreeData → MerkleTreeHash)
    (S : MerkleTreeHash × MerkleTreeHash → MerkleTreeData) :
    ∀ (k : Nat) (nodes : List MerkleTreeHash),
      (internalLoop H S k nodes).length = nodes.length := by
  intro k
  induction k with
  | zero => intro nodes; rfl
  | succ k ih =>
    intro nodes
    rw [internalLoop, ih, List.length_set]

/-- Slots at or above the loop counter are never touched again. -/
lemma internalLoop_getD_ge (H : MerkleTreeData → MerkleTreeHash)
    (S : MerkleTreeHash × MerkleTreeHash → MerkleTreeData) :
    ∀ (k : Nat) (nodes : List MerkleTreeHash) (j : Nat), k ≤ j →
      (internalLoop H S k nodes).getD j zeroHash = nodes.getD j zeroHash := by
  intro k
  induction k with
  | zero => intro nodes j _; rfl
  | succ k ih =>
    intro nodes j hj
    rw [internalLoop, ih _ j (by omega), getD_set_ne (by omega)]

/-- Running the internal loop down from counter `k` on an array whose slots
`≥ k` already hold their `treeNode` values makes *every* slot hold its
`treeNode` value. -/
lemma internalLoop_getD (H : MerkleTreeData → MerkleTreeHash)
    (S : MerkleTreeHash × MerkleTreeHash → MerkleTreeData)
    (leafH : Nat → MerkleTreeHash) {st st_sum : Nat} (hst : st_sum < st) :
    ∀ (k : Nat) (nodes : List MerkleTreeHash), k ≤ st_sum →
      nodes.length = st_sum + st →
      (∀ j, k ≤ j → j < st_sum + st →
        nodes.getD j zeroHash = treeNode H S leafH st_sum j) →
      ∀ j, j < st_sum + st →
        (internalLoop H S k nodes).getD j zeroHash = treeNode H S leafH st_sum j := by
  intro k
  induction k with
  | zero =>
    intro nodes _ _ hinv j hj
    exact hinv j (Nat.zero_le j) hj
  | succ k ih =>
    intro nodes hk hlen hinv j hj
    rw [internalLoop]
    refine ih _ (by omega) ?_ ?_ j hj
    · rw [List.length_set]
      exact hlen
    · intro j' hj' hj'lt
      by_cases hjk : k = j'
      · subst hjk
        rw [getD_set_self (by omega)]
        have h2 : (k + 1) * 2 = 2 * k + 2 := by ring
        rw [h2, hinv (2 * k + 1) (by omega) (by omega), hinv (2 * k + 2) (by omega) (by omega),
          treeNode_internal H S leafH (show k < st_sum by omega)]
      · rw [getD_set_ne (by omega)]
        exact hinv j' (by omega) hj'lt

/-! ## The assembled node array -/

lemma padItems_length {items : List MerkleTreeData} {total : Nat}
    (h : items.length ≤ total) : (padItems items total).length = total := by
  simp only [padItems, List.length_append, List.length_replicate]
  omega

lemma padItems_getD_lt {items : List MerkleTreeData} {total j : Nat}
    (hj : j < items.length) : (padItems items total).getD j [] = items.getD j [] :=
  List.getD_append _ _ _ _ hj

lemma padItems_getD_ge {items : List MerkleTreeData} {total j : Nat}
    (h1 : items.length ≤ j) : (padItems items total).getD j [] = [] := by
  rw [padItems, List.getD_append_right _ _ _ _ h1, List.getD_eq_getD_get?,
    List.get?_eq_getElem?]
  exact List.getElem?_getD_replicate_default_eq _ _ _

lemma leafNodes_length (H : MerkleTreeData → MerkleTreeHash)
    {items2 : List MerkleTreeData} {st_sum st : Nat} (hlen : st ≤ items2.length) :
    (leafNodes H items2 st_sum st).length = st_sum + st := by
  simp only [leafNodes, List.length_append, List.length_replicate, List.length_map,
    List.length_take]
  omega

lemma leafNodes_getD (H : MerkleTreeData → MerkleTreeHash)
    {items2 : List MerkleTreeData} {st_sum st j : Nat}
    (hlen : st ≤ items2.length) (hj : j < st) :
    (leafNodes H items2 st_sum st).getD (st_sum + j) zeroHash = H (items2.getD j []) := by
  have hjlen : j < ((items2.take st).map H).length := by
    simp only [List.length_map, List.length_take]
    omega
  rw [leafNodes, List.getD_append_right _ _ _ _ (by simp), List.length_replicate,
    Nat.add_sub_cancel_left, List.getD_eq_getElem _ _ hjlen, List.getElem_map,
    List.getElem_take, List.getD_eq_getElem _ _ (by omega)]

example : stPair 0 = (1, 0) := by decide
example : stPair 1 = (1, 0) := by decide
example : stPair 3 = (4, 3) := by decide
example : stPair 8 = (8, 7) := by decide

lemma one_le_stPair_fst (n : Nat) : 1 ≤ (stPair n).1 := by
  obtain ⟨k, hk, -, -⟩ := stPair_spec n
  rw [hk]
  simpa using Nat.one_le_two_pow

lemma buildNodes_length (H : MerkleTreeData → MerkleTreeHash)
    (S : MerkleTreeHash × MerkleTreeHash → MerkleTreeData) (items : List MerkleTreeData) :
    (buildNodes H S items).length = (stPair items.length).2 + (stPair items.length).1 := by
  have hle := le_stPair_fst items.length
  rw [buildNodes, internalLoop_length,
    leafNodes_length H (by rw [padItems_length (by omega)]; omega)]

/-- The fully built node array holds the `treeNode` value at every slot. -/
lemma buildNodes_getD (H : MerkleTreeData → MerkleTreeHash)
    (S : MerkleTreeHash × MerkleTreeHash → MerkleTreeData) (items : List MerkleTreeData)
    {j : Nat} (hj : j < (stPair items.length).2 + (stPair items.length).1) :
    (buildNodes H S items).getD j zeroHash =
      treeNode H S (paddedLeafH H items) (stPair items.length).2 j := by
  have hsum := stPair_snd_add_one items.length
  have hle := le_stPair_fst items.length
  have hpadlen : (padItems items ((stPair items.length).2 + (stPair items.length).1)).length
      = (stPair items.length).2 + (stPair items.length).1 := padItems_length (by omega)
  rw [buildNodes]
  refine internalLoop_getD H S _ (show (stPair items.length).2 < (stPair items.length).1 by
    omega) _ _ (le_refl _) (leafNodes_length H (by omega)) ?_ j hj
  intro j' hj' hj'lt
  obtain ⟨m, rfl⟩ : ∃ m, j' = (stPair items.length).2 + m := ⟨j' - (stPair items.length).2, by omega⟩
  rw [leafNodes_getD H (by omega) (by omega), treeNode_leaf H S _ (by omega),
    Nat.add_sub_cancel_left]
  rfl

/-- The root stored by `build` is the `treeNode` value of slot `0`. -/
lemma build_root (H : MerkleTreeData → MerkleTreeHash)
    (S : MerkleTreeHash × MerkleTreeHash → MerkleTreeData) (items : List MerkleTreeData) :
    (MerkleTree.build H S items).root.hash =
      treeNode H S (paddedLeafH H items) (stPair items.length).2 0 := by
  have h1 := one_le_stPair_fst items.length
  rw [MerkleTree.build]
  exact buildNodes_getD H S items (by omega)

lemma build_proofs_length (H : MerkleTreeData → MerkleTreeHash)
    (S : MerkleTreeHash × MerkleTreeHash → MerkleTreeData) (items : List MerkleTreeData) :
    (MerkleTree.build H S items).proofs.length = items.length := by
  rw [MerkleTree.build]
  simp

lemma build_proofs_getD (H : MerkleTreeData → MerkleTreeHash)
    (S : MerkleTreeHash × MerkleTreeHash → MerkleTreeData) (items : List MerkleTreeData)
    {i : Nat} (hi : i < items.length) :
    (MerkleTree.build H S items).proofs.getD i [] =
      getProofAt (buildNodes H S items) (i + (stPair items.length).2) := by
  rw [MerkleTree.build]
  simp only
  rw [List.getD_eq_getElem _ _ (by simpa using hi), List.getElem_map, List.getElem_range]
  rfl

/-! ## The sibling walk -/

/-- The walk is fuel-irrelevant once the fuel dominates the start slot. -/
lemma proofLoopF_congr (nodes : List MerkleTreeHash) :
    ∀ (v f1 f2 : Nat), v ≤ f1 → v ≤ f2 →
      proofLoopF nodes f1 v = proofLoopF nodes f2 v := by
  intro v
  induction v using Nat.strong_induction_on with
  | _ v ih =>
    intro f1 f2 h1 h2
    rcases Nat.eq_zero_or_pos v with h0 | hpos
    · subst h0
      rcases f1 with _ | a <;> rcases f2 with _ | b <;> simp [proofLoopF]
    · rcases f1 with _ | a
      · omega
      rcases f2 with _ | b
      · omega
      rw [proofLoopF, proofLoopF]
      simp only [if_pos hpos]
      rw [ih ((v - 1) / 2) (by omega) a b (by omega) (by omega)]

lemma getProofAt_succ (nodes : List MerkleTreeHash) {v : Nat} (hv : 0 < v) :
    getProofAt nodes v =
      nodes.getD (if v % 2 == 0 then v - 1 else v + 1) zeroHash ::
        getProofAt nodes ((v - 1) / 2) := by
  rcases v with _ | w
  · omega
  rw [getProofAt, getProofAt, proofLoopF, if_pos (by simp),
    proofLoopF_congr nodes ((w + 1 - 1) / 2) w ((w + 1 - 1) / 2) (by omega) (by omega)]

/-- Starting anywhere in the range of a perfect tree of `2 ^ k` leaves, the
walk collects exactly `k` siblings. -/
lemma getProofAt_length (nodes : List MerkleTreeHash) :
    ∀ (k v : Nat), 2 ^ k - 1 ≤ v → v ≤ 2 ^ (k + 1) - 2 →
      (getProofAt nodes v).length = k := by
  intro k
  induction k with
  | zero =>
    intro v h1 h2
    have hv : v = 0 := by simpa using h2
    subst hv
    rfl
  | succ k ih =>
    intro v h1 h2
    have hA : 1 ≤ 2 ^ k := Nat.one_le_two_pow
    have hs1 : (2 : ℕ) ^ (k + 1) = 2 * 2 ^ k := by ring
    have hs2 : (2 : ℕ) ^ (k + 2) = 4 * 2 ^ k := by ring
    rw [hs1] at h1
    rw [hs2] at h2
    have hv : 0 < v := by omega
    rw [getProofAt_succ nodes hv, List.length_cons]
    rw [ih ((v - 1) / 2) (by rw [hs1] at *; omega) (by rw [hs1] at *; omega)]

/-! ## Replaying a walk recomputes the root -/

/-- Folding the collected siblings onto a slot's own value yields slot `0`'s
value: the verification replay of an honestly extracted proof.  `nodes` is any
array of odd length `2 * st_sum + 1` that holds `treeNode` values. -/
lemma foldl_getProofAt (H : MerkleTreeData → MerkleTreeHash)
    (S : MerkleTreeHash × MerkleTreeHash → MerkleTreeData)
    (leafH : Nat → MerkleTreeHash) {st_sum : Nat} (nodes : List MerkleTreeHash)
    (hnodes : ∀ j, j < 2 * st_sum + 1 →
      nodes.getD j zeroHash = treeNode H S leafH st_sum j) :
    ∀ v, v < 2 * st_sum + 1 →
      (getProofAt nodes v).foldl (fun hash second_hash => combine H S hash second_hash)
          (treeNode H S leafH st_sum v) =
        treeNode H S leafH st_sum 0 := by
  intro v
  induction v using Nat.strong_induction_on with
  | _ v ih =>
    intro hv
    rcases Nat.eq_zero_or_pos v with h0 | hpos
    · subst h0
      rfl
    · rw [getProofAt_succ nodes hpos, List.foldl_cons]
      set p := (v - 1) / 2 with hp
      by_cases hpar : v % 2 = 0
      · have hw : (if v % 2 == 0 then v - 1 else v + 1) = v - 1 := by simp [hpar]
        have hp2 : 2 * p + 1 = v - 1 := by omega
        have hp3 : 2 * p + 2 = v := by omega
        have hstep : combine H S (treeNode H S leafH st_sum v)
            (treeNode H S leafH st_sum (v - 1)) = treeNode H S leafH st_sum p := by
          rw [treeNode_internal H S leafH (show p < st_sum by omega), hp2, hp3, combine_comm]
        rw [hw, hnodes (v - 1) (by omega), hstep]
        exact ih p (by omega) (by omega)
      · have hpar1 : v % 2 = 1 := by omega
        have hw : (if v % 2 == 0 then v - 1 else v + 1) = v + 1 := by simp [hpar1]
        have hp2 : 2 * p + 1 = v := by omega
        have hp3 : 2 * p + 2 = v + 1 := by omega
        have hstep : combine H S (treeNode H S leafH st_sum v)
            (treeNode H S leafH st_sum (v + 1)) = treeNode H S leafH st_sum p := by
          rw [treeNode_internal H S leafH (show p < st_sum by omega), hp2, hp3]
        rw [hw, hnodes (v + 1) (by omega), hstep]
        exact ih p (by omega) (by omega)

/-- Injectivity transfer: equal combinations with injective hash and
serializer force equal sorted pairs. -/
lemma combine_inj {H : MerkleTreeData → MerkleTreeHash}
    {S : MerkleTreeHash × MerkleTreeHash → MerkleTreeData}
    (hH : Function.Injective H) (hS : Function.Injective S)
    {a b a' b' : MerkleTreeHash} (h : combine H S a b = combine H S a' b') :
    sort_hash_pair a b = sort_hash_pair a' b' :=
  hS (hH h)

/-- Conversely, when the hash and serializer are collision-free, a replay that
reaches slot `0`'s value can only have started from the slot's own value. -/
lemma foldl_getProofAt_inj (H : MerkleTreeData → MerkleTreeHash)
    (S : MerkleTreeHash × MerkleTreeHash → MerkleTreeData)
    (leafH : Nat → MerkleTreeHash) {st_sum : Nat} (nodes : List MerkleTreeHash)
    (hH : Function.Injective H) (hS : Function.Injective S)
    (hnodes : ∀ j, j < 2 * st_sum + 1 →
      nodes.getD j zeroHash = treeNode H S leafH st_sum j) :
    ∀ v, v < 2 * st_sum + 1 → ∀ x : MerkleTreeHash,
      (getProofAt nodes v).foldl (fun hash second_hash => combine H S hash second_hash) x =
        treeNode H S leafH st_sum 0 →
      x = treeNode H S leafH st_sum v := by
  intro v
  induction v using Nat.strong_induction_on with
  | _ v ih =>
    intro hv x hfold
    rcases Nat.eq_zero_or_pos v with h0 | hpos
    · subst h0
      exact hfold
    · rw [getProofAt_succ nodes hpos, List.foldl_cons] at hfold
      set p := (v - 1) / 2 with hp
      by_cases hpar : v % 2 = 0
      · have hw : (if v % 2 == 0 then v - 1 else v + 1) = v - 1 := by simp [hpar]
        have hp2 : 2 * p + 1 = v - 1 := by omega
        have hp3 : 2 * p + 2 = v := by omega
        rw [hw, hnodes (v - 1) (by omega)] at hfold
        have hxw := ih p (by omega) (by omega) _ hfold
        have hpint : treeNode H S leafH st_sum p =
            combine H S (treeNode H S leafH st_sum v) (treeNode H S leafH st_sum (v - 1)) := by
          rw [treeNode_internal H S leafH (show p < st_sum by omega), hp2, hp3, combine_comm]
        rw [hpint] at hxw
        exact sort_hash_pair_cancel (combine_inj hH hS hxw)
      · have hpar1 : v % 2 = 1 := by omega
        have hw : (if v % 2 == 0 then v - 1 else v + 1) = v + 1 := by simp [hpar1]
        have hp2 : 2 * p + 1 = v := by omega
        have hp3 : 2 * p + 2 = v + 1 := by omega
        rw [hw, hnodes (v + 1) (by omega)] at hfold
        have hxw := ih p (by omega) (by omega) _ hfold
        have hpint : treeNode H S leafH st_sum p =
            combine H S (treeNode H S leafH st_sum v) (treeNode H S leafH st_sum (v + 1)) := by
          rw [treeNode_internal H S leafH (show p < st_sum by omega), hp2, hp3]
        rw [hpint] at hxw
        exact sort_hash_pair_cancel (combine_inj hH hS hxw)

/-! ## Concrete stand-in facts used by witnesses and counterexamples -/

lemma Hc_injective : Function.Injective Hc := by
  intro a b h
  simpa [Hc] using h

lemma Sc_injective : Function.Injective Sc := by
  rintro ⟨a, b⟩ ⟨c, d⟩ h
  simp only [Sc, List.cons.injEq] at h
  obtain ⟨hac, hbd⟩ := List.append_inj h.2 h.1
  rw [hac, hbd]

/-! ## The claims -/

/-- C1: round-trip completeness — for every leaf list `L` and every index
`i < L.length`, verifying `L[i]` with the `i`-th proof of `build L` against
the root of `build L` returns `true`.  Universally quantified over the
external hash `H` and pair serializer `S`. -/
theorem c1_roundtrip_verify (H : MerkleTreeData → MerkleTreeHash)
    (S : MerkleTreeHash × MerkleTreeHash → MerkleTreeData)
    (L : List MerkleTreeData) (i : Nat) (hi : i < L.length) :
    MerkleTreeRoot.verify H S (MerkleTree.build H S L).root (L.getD i [])
      ((MerkleTree.build H S L).proofs.getD i []) = true := by
  have hsum := stPair_snd_add_one L.length
  have hle := le_stPair_fst L.length
  have hnodes : ∀ j, j < 2 * (stPair L.length).2 + 1 →
      (buildNodes H S L).getD j zeroHash =
        treeNode H S (paddedLeafH H L) (stPair L.length).2 j := by
    intro j hj
    exact buildNodes_getD H S L (by omega)
  have hleaf : H (L.getD i []) =
      treeNode H S (paddedLeafH H L) (stPair L.length).2 (i + (stPair L.length).2) := by
    rw [treeNode_leaf H S _ (by omega), Nat.add_sub_cancel]
    unfold paddedLeafH
    rw [padItems_getD_lt hi]
  rw [build_proofs_getD H S L hi, MerkleTreeRoot.verify, build_root H S L, hleaf,
    foldl_getProofAt H S (paddedLeafH H L) (buildNodes H S L) hnodes
      (i + (stPair L.length).2) (by omega)]
  simp

/-- Witness for C1 at the concrete three-leaf list `[[0], [1], [2]]`, index 1. -/
theorem c1_roundtrip_verify_witness :
    1 < ([[0], [1], [2]] : List MerkleTreeData).length ∧
    MerkleTreeRoot.verify Hc Sc (MerkleTree.build Hc Sc [[0], [1], [2]]).root [1]
      ((MerkleTree.build Hc Sc [[0], [1], [2]]).proofs.getD 1 []) = true :=
  ⟨by decide, c1_roundtrip_verify Hc Sc [[0], [1], [2]] 1 (by decide)⟩

/-- C6: commutativity of pair combination — `combine` (sort the digest pair
smaller-first, serialize, hash) gives the same digest in either argument
order, for every hash `H` and serializer `S`. -/
theorem c6_combine_commutative (H : MerkleTreeData → MerkleTreeHash)
    (S : MerkleTreeHash × MerkleTreeHash → MerkleTreeData) (a b : MerkleTreeHash) :
    combine H S a b = combine H S b a :=
  combine_comm H S a b

/-- C7: single-leaf degenerate case — `build [b]` pads to size 1, returns
exactly one proof, which is empty, its root is the leaf digest `H b`, and
`verify b [] root` succeeds. -/
theorem c7_single_leaf (H : MerkleTreeData → MerkleTreeHash)
    (S : MerkleTreeHash × MerkleTreeHash → MerkleTreeData) (b : MerkleTreeData) :
    (stPair [b].length).1 = 1 ∧
    (MerkleTree.build H S [b]).proofs = [[]] ∧
    (MerkleTree.build H S [b]).root.hash = H b ∧
    MerkleTreeRoot.verify H S (MerkleTree.build H S [b]).root b [] = true :=
  ⟨rfl, rfl, rfl, decide_eq_true rfl⟩

/-- C10 (implicit): `build` on the empty leaf list returns normally — the
padded size becomes 1 (`stPair 0 = (1, 0)`), the proofs vector is empty, and
the root is the digest of a single empty padding blob. -/
theorem c10_empty_build (H : MerkleTreeData → MerkleTreeHash)
    (S : MerkleTreeHash × MerkleTreeHash → MerkleTreeData) :
    stPair (List.length ([] : List MerkleTreeData)) = (1, 0) ∧
    (MerkleTree.build H S []).proofs = [] ∧
    (MerkleTree.build H S []).root.hash = H [] :=
  ⟨rfl, rfl, rfl⟩

/-- Counterexample to C3 as stated: `build` on the empty leaf list does not
fail — it is a total computation that silently returns a digest (the hash of
one empty padding blob) and an empty proofs vector, exhibited here on the
concrete stand-in hash. -/
theorem c3_counterexample :
    (MerkleTree.build Hc Sc []).proofs = [] ∧
    (MerkleTree.build Hc Sc []).root.hash = Hc [] :=
  ⟨rfl, rfl⟩

/-- C3 (amended): calling `build` on an empty leaf list returns normally,
with an empty proofs vector and a root equal to the digest of the empty
padding blob — it does not surface an error. -/
theorem c3_empty_build_no_error (H : MerkleTreeData → MerkleTreeHash)
    (S : MerkleTreeHash × MerkleTreeHash → MerkleTreeData) :
    (MerkleTree.build H S []).proofs = [] ∧
    (MerkleTree.build H S []).root.hash = H [] :=
  ⟨rfl, rfl⟩

/-- C2 (amended): negative path — for indices `i ≠ j` whose leaf blobs
differ, verifying `L[i]` against leaf `j`'s proof returns `false`, under
collision-freedom (injectivity) of the hash and of the pair serialization.
(The blob-difference hypothesis is forced: with duplicate leaf blobs the
mismatched pair verifies, see the counterexample.) -/
theorem c2_mismatched_proof_fails (H : MerkleTreeData → MerkleTreeHash)
    (S : MerkleTreeHash × MerkleTreeHash → MerkleTreeData)
    (L : List MerkleTreeData) (i j : Nat)
    (hH : Function.Injective H) (hS : Function.Injective S)
    (hi : i < L.length) (hj : j < L.length) (hij : i ≠ j)
    (hdata : L.getD i [] ≠ L.getD j []) :
    MerkleTreeRoot.verify H S (MerkleTree.build H S L).root (L.getD i [])
      ((MerkleTree.build H S L).proofs.getD j []) = false := by
  have hsum := stPair_snd_add_one L.length
  have hle := le_stPair_fst L.length
  have hnodes : ∀ j', j' < 2 * (stPair L.length).2 + 1 →
      (buildNodes H S L).getD j' zeroHash =
        treeNode H S (paddedLeafH H L) (stPair L.length).2 j' := by
    intro j' hj'
    exact buildNodes_getD H S L (by omega)
  rw [build_proofs_getD H S L hj, MerkleTreeRoot.verify, build_root H S L]
  apply decide_eq_false
  intro heq
  have hx := foldl_getProofAt_inj H S (paddedLeafH H L) (buildNodes H S L) hH hS hnodes
    (j + (stPair L.length).2) (by omega) (H (L.getD i [])) heq.symm
  rw [treeNode_leaf H S _ (by omega), Nat.add_sub_cancel] at hx
  have hpj : paddedLeafH H L j = H (L.getD j []) := by
    unfold paddedLeafH
    rw [padItems_getD_lt hj]
  rw [hpj] at hx
  exact hdata (hH hx)

/-- Counterexample to C2 as stated: on the duplicate-leaf list `[[0], [0]]`,
leaf 0's blob verifies against leaf 1's proof even though no hash collision
is involved — the stand-in hash and serializer are injective, so no two
distinct inputs collide anywhere. -/
theorem c2_counterexample :
    Function.Injective Hc ∧ Function.Injective Sc ∧ (0 : Nat) ≠ 1 ∧
    MerkleTreeRoot.verify Hc Sc (MerkleTree.build Hc Sc [[0], [0]]).root [0]
      ((MerkleTree.build Hc Sc [[0], [0]]).proofs.getD 1 []) = true :=
  ⟨Hc_injective, Sc_injective, by decide, by decide⟩

/-- Witness for C2 at the two-leaf list `[[0], [1]]`, blob 0 against proof 1. -/
theorem c2_mismatched_proof_fails_witness :
    MerkleTreeRoot.verify Hc Sc (MerkleTree.build Hc Sc [[0], [1]]).root [0]
      ((MerkleTree.build Hc Sc [[0], [1]]).proofs.getD 1 []) = false :=
  c2_mismatched_proof_fails Hc Sc [[0], [1]] 0 1 Hc_injective Sc_injective
    (by decide) (by decide) (by decide) (by decide)

/-- C4: proof shape — `build L` returns exactly `L.length` proofs (one per
original leaf, none for padding), every proof has the same length
`log2 paddedSize`, and `paddedSize = (stPair L.length).1` is the smallest
power of two at least `L.length`. -/
theorem c4_proof_shape (H : MerkleTreeData → MerkleTreeHash)
    (S : MerkleTreeHash × MerkleTreeHash → MerkleTreeData)
    (L : List MerkleTreeData) (hL : 0 < L.length) :
    (MerkleTree.build H S L).proofs.length = L.length ∧
    (∀ p ∈ (MerkleTree.build H S L).proofs, p.length = Nat.log2 (stPair L.length).1) ∧
    (stPair L.length).1 = 2 ^ Nat.clog 2 L.length ∧
    L.length ≤ (stPair L.length).1 ∧
    (∀ m : Nat, L.length ≤ 2 ^ m → (stPair L.length).1 ≤ 2 ^ m) := by
  obtain ⟨k, hk, hn, hmin⟩ := stPair_spec L.length
  have hA : 1 ≤ 2 ^ k := Nat.one_le_two_pow
  have hfst : (stPair L.length).1 = 2 ^ k := by rw [hk]
  have hsnd : (stPair L.length).2 = 2 ^ k - 1 := by rw [hk]
  refine ⟨build_proofs_length H S L, ?_, stPair_fst_eq_pow_clog L.length, le_stPair_fst L.length, ?_⟩
  · intro p hp
    rw [MerkleTree.build] at hp
    simp only [List.mem_map, List.mem_range] at hp
    obtain ⟨i, hi, rfl⟩ := hp
    have hpow : (2 : ℕ) ^ (k + 1) = 2 * 2 ^ k := by ring
    have hlen : (getProofAt (buildNodes H S L) (i + (stPair L.length).2)).length = k := by
      refine getProofAt_length (buildNodes H S L) k (i + (stPair L.length).2)
        (by omega) (by omega)
    rw [hfst, Nat.log2_eq_log_two, Nat.log_pow (by norm_num)]
    exact hlen
  · intro m hm
    rw [hfst]
    rcases hmin with h0 | hlt
    · subst h0
      simpa using Nat.one_le_two_pow
    · have h1 : 2 ^ (k - 1) < 2 ^ m := by omega
      have h2 : k - 1 < m := (Nat.pow_lt_pow_iff_right (by norm_num)).mp h1
      exact Nat.pow_le_pow_right (by norm_num) (by omega)

/-- Witness for C4 at the three-leaf list `[[0], [1], [2]]`
(padded size 4, proof length 2). -/
theorem c4_proof_shape_witness :
    0 < ([[0], [1], [2]] : List MerkleTreeData).length ∧
    ((MerkleTree.build Hc Sc [[0], [1], [2]]).proofs.length =
        ([[0], [1], [2]] : List MerkleTreeData).length ∧
      (∀ p ∈ (MerkleTree.build Hc Sc [[0], [1], [2]]).proofs,
        p.length = Nat.log2 (stPair ([[0], [1], [2]] : List MerkleTreeData).length).1) ∧
      (stPair ([[0], [1], [2]] : List MerkleTreeData).length).1 =
        2 ^ Nat.clog 2 ([[0], [1], [2]] : List MerkleTreeData).length ∧
      ([[0], [1], [2]] : List MerkleTreeData).length ≤
        (stPair ([[0], [1], [2]] : List MerkleTreeData).length).1 ∧
      (∀ m : Nat, ([[0], [1], [2]] : List MerkleTreeData).length ≤ 2 ^ m →
        (stPair ([[0], [1], [2]] : List MerkleTreeData).length).1 ≤ 2 ^ m)) :=
  ⟨by decide, c4_proof_shape Hc Sc [[0], [1], [2]] (by decide)⟩

/-- C5: construction algorithm — with `(st, st_sum) = stPair L.length`,
`st` is the smallest power of two at least `n = L.length` and
`st_sum = st - 1`; the node array has `2 * st - 1` slots; slot `st - 1 + j`
holds the digest of padded leaf `j` (the original blob below `n`, the empty
blob in the padding range); every internal slot `i < st - 1` is the
combination of its child slots `2i + 1` and `2i + 2`; and the returned root
is slot `0`. -/
theorem c5_construction (H : MerkleTreeData → MerkleTreeHash)
    (S : MerkleTreeHash × MerkleTreeHash → MerkleTreeData)
    (L : List MerkleTreeData) (hL : 0 < L.length)
    (st st_sum : Nat) (hpair : stPair L.length = (st, st_sum)) :
    st_sum = st - 1 ∧
    st = 2 ^ Nat.clog 2 L.length ∧
    L.length ≤ st ∧
    (∀ m : Nat, L.length ≤ 2 ^ m → st ≤ 2 ^ m) ∧
    (buildNodes H S L).length = 2 * st - 1 ∧
    (∀ j, j < st → (buildNodes H S L).getD (st - 1 + j) zeroHash =
      H (if j < L.length then L.getD j [] else [])) ∧
    (∀ i, i < st - 1 → (buildNodes H S L).getD i zeroHash =
      combine H S ((buildNodes H S L).getD (2 * i + 1) zeroHash)
        ((buildNodes H S L).getD (2 * i + 2) zeroHash)) ∧
    (MerkleTree.build H S L).root.hash = (buildNodes H S L).getD 0 zeroHash := by
  have hfst : (stPair L.length).1 = st := by rw [hpair]
  have hsnd : (stPair L.length).2 = st_sum := by rw [hpair]
  have hsum := stPair_snd_add_one L.length
  have hle := le_stPair_fst L.length
  obtain ⟨k, hk, hn, hmin⟩ := stPair_spec L.length
  have hA : 1 ≤ 2 ^ k := Nat.one_le_two_pow
  have hstk : st = 2 ^ k := by rw [← hfst, hk]
  refine ⟨by omega, ?_, by omega, ?_, ?_, ?_, ?_, rfl⟩
  · rw [← hfst]
    exact stPair_fst_eq_pow_clog L.length
  · intro m hm
    rcases hmin with h0 | hlt
    · subst h0
      simp only [pow_zero] at hstk
      omega
    · have h1 : 2 ^ (k - 1) < 2 ^ m := by omega
      have h2 : k - 1 < m := (Nat.pow_lt_pow_iff_right (by norm_num)).mp h1
      have := Nat.pow_le_pow_right (show 0 < 2 by norm_num) (show k ≤ m by omega)
      omega
  · rw [buildNodes_length, hfst, hsnd]
    omega
  · intro j hj
    have hidx : st - 1 + j = (stPair L.length).2 + j := by omega
    rw [hidx, buildNodes_getD H S L (by omega), treeNode_leaf H S _ (by omega),
      Nat.add_sub_cancel_left]
    unfold paddedLeafH
    by_cases hjn : j < L.length
    · rw [padItems_getD_lt hjn, if_pos hjn]
    · rw [padItems_getD_ge (by omega), if_neg hjn]
  · intro i hi
    have hint : i < (stPair L.length).2 := by omega
    rw [buildNodes_getD H S L (by omega), buildNodes_getD H S L (by omega),
      buildNodes_getD H S L (by omega), treeNode_internal H S _ hint]

/-- Witness for C5 at the three-leaf list `[[5], [6], [7]]`
(`stPair 3 = (4, 3)`). -/
theorem c5_construction_witness :
    0 < ([[5], [6], [7]] : List MerkleTreeData).length ∧
    stPair ([[5], [6], [7]] : List MerkleTreeData).length = (4, 3) ∧
    ((3 : Nat) = 4 - 1 ∧
      (4 : Nat) = 2 ^ Nat.clog 2 ([[5], [6], [7]] : List MerkleTreeData).length ∧
      ([[5], [6], [7]] : List MerkleTreeData).length ≤ 4 ∧
      (∀ m : Nat, ([[5], [6], [7]] : List MerkleTreeData).length ≤ 2 ^ m → 4 ≤ 2 ^ m) ∧
      (buildNodes Hc Sc [[5], [6], [7]]).length = 2 * 4 - 1 ∧
      (∀ j, j < 4 → (buildNodes Hc Sc [[5], [6], [7]]).getD (4 - 1 + j) zeroHash =
        Hc (if j < ([[5], [6], [7]] : List MerkleTreeData).length
          then ([[5], [6], [7]] : List MerkleTreeData).getD j [] else [])) ∧
      (∀ i, i < 4 - 1 → (buildNodes Hc Sc [[5], [6], [7]]).getD i zeroHash =
        combine Hc Sc ((buildNodes Hc Sc [[5], [6], [7]]).getD (2 * i + 1) zeroHash)
          ((buildNodes Hc Sc [[5], [6], [7]]).getD (2 * i + 2) zeroHash)) ∧
      (MerkleTree.build Hc Sc [[5], [6], [7]]).root.hash =
        (buildNodes Hc Sc [[5], [6], [7]]).getD 0 zeroHash) :=
  ⟨by decide, by decide, c5_construction Hc Sc [[5], [6], [7]] (by decide) 4 3 (by decide)⟩

lemma data_slice_getD {T : Type} (sha : String → MerkleTreeHash) (jstr : T → String)
    (datas : List T) (d : T) {m : Nat} (hm : m < datas.length) :
    (data_slice sha jstr datas).getD m [] = sha (jstr (datas.getD m d)) := by
  rw [data_slice, List.getD_eq_getElem _ _ (by simpa using hm), List.getElem_map,
    List.getD_eq_getElem _ _ hm]

/-- C8: identifier-commitment mode — in `get_hash_merkle`'s leaf list,
every leaf blob is the SHA-256 digest of the serialized identifier, the
identifiers come first (in order), exactly one synthetic leaf (the block's
`transactions_root`) is appended at the end, and `build` hashes each such
digest blob again with Keccak-256: the tree's leaf slot `st_sum + j` holds
`H (sha (jstr id_j))` — intentional double hashing. -/
theorem c8_identifier_mode (H : MerkleTreeData → MerkleTreeHash)
    (S : MerkleTreeHash × MerkleTreeHash → MerkleTreeData)
    (sha : String → MerkleTreeHash) (jstr : H256 → String) (block : Block) (j : Nat)
    (hj : j < (block.transactions ++ [block.transactions_root]).length) :
    (data_slice sha jstr (block.transactions ++ [block.transactions_root])).length =
      block.transactions.length + 1 ∧
    (∀ m, m < block.transactions.length →
      (data_slice sha jstr (block.transactions ++ [block.transactions_root])).getD m [] =
        sha (jstr (block.transactions.getD m []))) ∧
    (data_slice sha jstr (block.transactions ++ [block.transactions_root])).getD
        block.transactions.length [] =
      sha (jstr block.transactions_root) ∧
    (buildNodes H S (data_slice sha jstr (block.transactions ++ [block.transactions_root]))).getD
        ((stPair (data_slice sha jstr
          (block.transactions ++ [block.transactions_root])).length).2 + j) zeroHash =
      H (sha (jstr ((block.transactions ++ [block.transactions_root]).getD j []))) := by
  have hlen : (data_slice sha jstr (block.transactions ++ [block.transactions_root])).length =
      block.transactions.length + 1 := by
    simp [data_slice]
  have htxlen : (block.transactions ++ [block.transactions_root]).length =
      block.transactions.length + 1 := by
    simp
  refine ⟨hlen, ?_, ?_, ?_⟩
  · intro m hm
    rw [data_slice_getD sha jstr _ ([] : H256) (by omega),
      List.getD_append _ _ _ _ hm]
  · rw [data_slice_getD sha jstr _ ([] : H256) (by omega),
      List.getD_append_right _ _ _ _ (le_refl _), Nat.sub_self]
    rfl
  · have hsum := stPair_snd_add_one
      (data_slice sha jstr (block.transactions ++ [block.transactions_root])).length
    have hle := le_stPair_fst
      (data_slice sha jstr (block.transactions ++ [block.transactions_root])).length
    rw [buildNodes_getD H S _ (by omega), treeNode_leaf H S _ (by omega),
      Nat.add_sub_cancel_left]
    unfold paddedLeafH
    rw [padItems_getD_lt (by omega), data_slice_getD sha jstr _ ([] : H256) (by omega)]

/-- Witness for C8 at a concrete block with one transaction hash. -/
theorem c8_identifier_mode_witness :
    1 < ((Block.mk [[1]] [2]).transactions ++ [(Block.mk [[1]] [2]).transactions_root]).length ∧
    ((data_slice Shac Jstrc ((Block.mk [[1]] [2]).transactions ++
        [(Block.mk [[1]] [2]).transactions_root])).length =
      (Block.mk [[1]] [2]).transactions.length + 1 ∧
    (∀ m, m < (Block.mk [[1]] [2]).transactions.length →
      (data_slice Shac Jstrc ((Block.mk [[1]] [2]).transactions ++
          [(Block.mk [[1]] [2]).transactions_root])).getD m [] =
        Shac (Jstrc ((Block.mk [[1]] [2]).transactions.getD m []))) ∧
    (data_slice Shac Jstrc ((Block.mk [[1]] [2]).transactions ++
        [(Block.mk [[1]] [2]).transactions_root])).getD
        (Block.mk [[1]] [2]).transactions.length [] =
      Shac (Jstrc (Block.mk [[1]] [2]).transactions_root) ∧
    (buildNodes Hc Sc (data_slice Shac Jstrc ((Block.mk [[1]] [2]).transactions ++
        [(Block.mk [[1]] [2]).transactions_root]))).getD
        ((stPair (data_slice Shac Jstrc ((Block.mk [[1]] [2]).transactions ++
          [(Block.mk [[1]] [2]).transactions_root])).length).2 + 1) zeroHash =
      Hc (Shac (Jstrc (((Block.mk [[1]] [2]).transactions ++
        [(Block.mk [[1]] [2]).transactions_root]).getD 1 [])))) :=
  ⟨by decide, c8_identifier_mode Hc Sc Shac Jstrc (Block.mk [[1]] [2]) 1 (by decide)⟩

/-- C9: identifier lookup — a requested identifier absent from the
identifier leaf list (transactions plus the appended `transactions_root`)
makes `get_hash_merkle` fail (the `.expect` panic, modelled as `none`);
with no requested identifier it returns the root together with the proof
for position 0. -/
theorem c9_identifier_lookup (H : MerkleTreeData → MerkleTreeHash)
    (S : MerkleTreeHash × MerkleTreeHash → MerkleTreeData)
    (sha : String → MerkleTreeHash) (jstr : H256 → String) (block : Block) (hx : H256)
    (hnot : hx ∉ block.transactions ++ [block.transactions_root]) :
    get_hash_merkle H S sha jstr block (some hx) = none ∧
    get_hash_merkle H S sha jstr block none =
      some ((MerkleTree.build H S (data_slice sha jstr
          (block.transactions ++ [block.transactions_root]))).root,
        (MerkleTree.build H S (data_slice sha jstr
          (block.transactions ++ [block.transactions_root]))).proofs.getD 0 []) := by
  constructor
  · have hfind : (block.transactions ++ [block.transactions_root]).findIdx?
        (fun h => h == hx) = none := by
      rw [List.findIdx?_eq_none_iff]
      intro x hxmem
      simp only [beq_eq_false_iff_ne]
      intro hxe
      exact hnot (hxe ▸ hxmem)
    rw [get_hash_merkle]
    simp only [hfind]
  · rfl

/-- Witness for C9: a one-transaction block and an absent hash. -/
theorem c9_identifier_lookup_witness :
    ([3] : H256) ∉ (Block.mk [[1]] [2]).transactions ++
      [(Block.mk [[1]] [2]).transactions_root] ∧
    (get_hash_merkle Hc Sc Shac Jstrc (Block.mk [[1]] [2]) (some [3]) = none ∧
    get_hash_merkle Hc Sc Shac Jstrc (Block.mk [[1]] [2]) none =
      some ((MerkleTree.build Hc Sc (data_slice Shac Jstrc ((Block.mk [[1]] [2]).transactions ++
          [(Block.mk [[1]] [2]).transactions_root]))).root,
        (MerkleTree.build Hc Sc (data_slice Shac Jstrc ((Block.mk [[1]] [2]).transactions ++
          [(Block.mk [[1]] [2]).transactions_root]))).proofs.getD 0 [])) :=
  ⟨by decide, c9_identifier_lookup Hc Sc Shac Jstrc (Block.mk [[1]] [2]) [3] (by decide)⟩
